import Mathlib

/-!
Verification of the `ops-via-sftp` repository: a shallow embedding of the
three Python source files

  * `sftp-csv-validator.py`      (discovery, retry, per-file processing,
                                  summary report, run entry point)
  * `fetch_and_delete_files_in_parallel.py`
  * `delete_csv_files_via_sftp.py`

together with theorems settling the behavioural claims of the design
specification.  Strings are embedded as `List Char`; remote I/O and other
fallible effects are embedded as explicit oracles; exceptions are embedded
as `Except` / early-exit control flow; the thread pool's log-file writes are
embedded as an interleaving step relation with an explicit mutex.
-/

namespace OpsViaSftp

/-! ## String preliminaries (embedding Python `str` operations) -/

/-- Python's notion of (ASCII) whitespace, as used by `str.strip()`. -/
def pyIsSpace (c : Char) : Bool :=
  c = ' ' || c = '\t' || c = '\n' || c = '\x0d' || c = '\x0b' || c = '\x0c'

/-- Embedding of Python `s.strip()` (no arguments): remove leading and
trailing whitespace. -/
def pyStrip (s : List Char) : List Char :=
  (((s.dropWhile pyIsSpace).reverse).dropWhile pyIsSpace).reverse

/-- Embedding of Python `s.endswith(suffix)`. -/
def pyEndsWith (s suffix : List Char) : Bool :=
  decide (suffix <:+ s)

/-- Embedding of Python `sub in s` (substring containment). -/
def pyContains (s sub : List Char) : Bool :=
  decide (sub <:+: s)

/-- Embedding of POSIX `os.path.join(a, b)` for two components. -/
def pathJoin (a b : List Char) : List Char :=
  if b.head? = some '/' then b
  else if a.getLast? = some '/' ∨ a = [] then a ++ b
  else a ++ '/' :: b

/-- Embedding of POSIX `os.path.basename(p)`: the part after the last
slash. -/
def basename (p : List Char) : List Char :=
  (p.reverse.takeWhile (fun c => ¬ (c = '/'))).reverse

theorem pyStrip_eq_nil_iff (s : List Char) :
    pyStrip s = [] ↔ ∀ c ∈ s, pyIsSpace c = true := by
  unfold pyStrip
  rw [List.reverse_eq_nil_iff, List.dropWhile_eq_nil_iff]
  constructor
  · intro h c hc
    by_cases hmem : c ∈ s.dropWhile pyIsSpace
    · exact h c (by simpa using hmem)
    · have hsplit := List.takeWhile_append_dropWhile (p := pyIsSpace) (l := s)
      rw [← hsplit] at hc
      rcases List.mem_append.mp hc with h1 | h1
      · exact List.mem_takeWhile_imp h1
      · exact absurd h1 hmem
  · intro h c hc
    rw [List.mem_reverse] at hc
    exact h c (List.dropWhile_subset _ hc)

/-! ## `validate_csv`  (sftp-csv-validator.py, lines 99–114)

The default validator: errors/warnings/info as lists of strings.  The only
check performed is whether the content is empty after stripping. -/

/-- Result triple `(errors, warnings, info)` of the validator. -/
structure ValidationResult where
  errors : List (List Char)
  warnings : List (List Char)
  info : List (List Char)
deriving DecidableEq, Repr

/-- Embedding of `validate_csv(csv_content, ...)`: appends
`"CSV content is empty"` to `errors` when the stripped content is empty,
otherwise appends `"CSV read successfully"` to `info`. -/
def validate_csv (csv_content : List Char) : ValidationResult :=
  if (pyStrip csv_content).isEmpty then
    { errors := ["CSV content is empty".data], warnings := [], info := [] }
  else
    { errors := [], warnings := [], info := ["CSV read successfully".data] }

/-! ## `safe_sftp_operation`  (sftp-csv-validator.py, lines 149–157)

The retried operation is embedded as an oracle `func : Nat → Except E A`
giving the outcome of each successive invocation (invocation `a` is attempt
`a + 1`).  The Python function either returns a value (`some (.ok v)`),
re-raises the last error (`some (.error e)`), or — only reachable when
`max_retries = 0` — falls through the loop and returns `None` (`none`).
The first component counts how many times `func` was invoked. -/

def safeLoop (func : Nat → Except E A) (max_retries : Nat) (attempt : Nat) :
    Nat × Option (Except E A) :=
  if _h : attempt < max_retries then
    match func attempt with
    | .ok v => (attempt + 1, some (.ok v))
    | .error e =>
      if attempt = max_retries - 1 then (attempt + 1, some (.error e))
      else safeLoop func max_retries (attempt + 1)
  else (attempt, none)
termination_by max_retries - attempt

/-- Embedding of `safe_sftp_operation(func, max_retries=3)`. -/
def safe_sftp_operation (func : Nat → Except E A) (max_retries : Nat := 3) :
    Nat × Option (Except E A) :=
  safeLoop func max_retries 0

theorem safeLoop_success (func : Nat → Except E A) (m i : Nat) (v : A)
    (hi : i < m) (hok : func i = .ok v) :
    ∀ d a, a ≤ i → i - a = d →
      (∀ j, a ≤ j → j < i → ∃ e, func j = .error e) →
      safeLoop func m a = (i + 1, some (.ok v)) := by
  intro d
  induction d with
  | zero =>
    intro a ha hd _
    have hai : a = i := by omega
    subst hai
    rw [safeLoop]
    simp [hi, hok]
  | succ d ih =>
    intro a ha hd hfa
    have hlt : a < i := by omega
    obtain ⟨e, he⟩ := hfa a (Nat.le_refl a) hlt
    have ham : a < m := Nat.lt_trans hlt hi
    have hne : ¬ a = m - 1 := by omega
    rw [safeLoop]
    simp only [ham, dif_pos, he, hne, if_false]
    exact ih (a + 1) (by omega) (by omega)
      (fun j hj hji => hfa j (by omega) hji)

theorem safeLoop_exhaust (func : Nat → Except E A) (m : Nat) (err : Nat → E)
    (hm : 0 < m) (hfail : ∀ j, j < m → func j = .error (err j)) :
    ∀ d a, a < m → m - a = d + 1 →
      safeLoop func m a = (m, some (.error (err (m - 1)))) := by
  intro d
  induction d with
  | zero =>
    intro a ha hd
    have hai : a = m - 1 := by omega
    subst hai
    have hs : m - 1 + 1 = m := by omega
    rw [safeLoop]
    simp [ha, hfail (m - 1) ha, hs]
  | succ d ih =>
    intro a ha hd
    have hne : ¬ a = m - 1 := by omega
    rw [safeLoop]
    simp only [ha, dif_pos, hfail a ha, hne, if_false]
    exact ih (a + 1) (by omega) (by omega)

theorem safeLoop_count_le (func : Nat → Except E A) (m : Nat) :
    ∀ d a, m - a = d → a ≤ m → (safeLoop func m a).1 ≤ m := by
  intro d
  induction d with
  | zero =>
    intro a hd ha
    have : ¬ a < m := by omega
    rw [safeLoop]
    simp only [this, dif_neg, not_false_iff]
    omega
  | succ d ih =>
    intro a hd ha
    have hlt : a < m := by omega
    rw [safeLoop]
    simp only [hlt, dif_pos]
    cases hfa : func a with
    | ok v => simpa using hlt
    | error e =>
      by_cases hne : a = m - 1
      · simp only [hne, if_true]
        omega
      · simp only [hne, if_false]
        exact ih (a + 1) (by omega) (by omega)

/-! ## `process_file`  (sftp-csv-validator.py, lines 160–184)

One worker task: fetch the remote file (with retry), read the local copy,
validate, append one log record under the log lock, insert one database
row; any exception falls to the `except` block, which appends an error
record instead.  Each fallible step is embedded as a boolean in a
`StepOracle`; the log and database effects are returned explicitly.  A log
write is modelled as atomic (it happens entirely or not at all); `raised`
records whether the exception escaped `process_file` (which happens exactly
when the `except`-block log append itself fails). -/

/-- Validation state of a record, matching the strings
`"valid" / "invalid" / "error"` written by the source. -/
inductive VState where
  | valid
  | invalid
  | error
deriving DecidableEq, Repr

/-- One line of the validation log after the header (structured view;
the source serialises it as
`filename,state,errors,warnings,info`). -/
structure Record where
  filename : List Char
  state : VState
  errors : List (List Char)
  warnings : List (List Char)
  info : List (List Char)
deriving DecidableEq, Repr

/-- One row of the `results` table, as inserted by `save_to_database`
(autoincrement id and default timestamp omitted). -/
structure DbRow where
  filename : List Char
  state : VState
  errors : List (List Char)
  warnings : List (List Char)
  info : List (List Char)
deriving DecidableEq, Repr

/-- Success/failure oracle for the fallible steps of one `process_file`
call. `fetchOk` is the overall outcome of `safe_sftp_operation(sftp.get)`,
`readOk` of the local open-and-read, `logOk` of the log append in the
`try` block, `dbOk` of `save_to_database`, and `logErrOk` of the log
append in the `except` block. -/
structure StepOracle where
  fetchOk : Bool
  readOk : Bool
  logOk : Bool
  dbOk : Bool
  logErrOk : Bool
deriving DecidableEq, Repr

/-- The record written by the `except` block:
`f"{filename},error,{error_str},,"`. -/
def errorRecord (filename errText : List Char) : Record :=
  { filename := filename, state := .error, errors := [errText],
    warnings := [], info := [] }

/-- Effects of one `process_file` call. -/
structure ProcResult where
  log : List Record
  db : List DbRow
  raised : Bool
deriving DecidableEq, Repr

/-- The `except`-block behaviour shared by every failure path of
`process_file`. -/
def exceptBlock (o : StepOracle) (filename errText : List Char) : ProcResult :=
  if o.logErrOk then
    { log := [errorRecord filename errText], db := [], raised := false }
  else
    { log := [], db := [], raised := true }

/-- Embedding of `process_file(sftp, file_info, schema_dict, dialect,
log_lock)`: the `try` block runs fetch, read, validate, log append and
database insert in order; the first failing step jumps to the `except`
block. `content` is what the local read returns when it succeeds;
`errText` is the text of whichever exception was raised. -/
def process_file (o : StepOracle) (filename content errText : List Char) :
    ProcResult :=
  if o.fetchOk then
    if o.readOk then
      let r := validate_csv content
      let validation_state := if r.errors.isEmpty then VState.valid else VState.invalid
      let outcome : Record :=
        { filename := filename, state := validation_state,
          errors := r.errors, warnings := r.warnings, info := r.info }
      if o.logOk then
        if o.dbOk then
          { log := [outcome],
            db := [{ filename := filename, state := validation_state,
                     errors := r.errors, warnings := r.warnings,
                     info := r.info }],
            raised := false }
        else
          { log := [outcome] ++ (exceptBlock o filename errText).log,
            db := [], raised := (exceptBlock o filename errText).raised }
      else exceptBlock o filename errText
    else exceptBlock o filename errText
  else exceptBlock o filename errText

/-- Claim C9: for every input string the default validator returns no
warnings and exactly one of `errors = ["CSV content is empty"]` with empty
info (when the content is whitespace-only) or
`info = ["CSV read successfully"]` with no errors (otherwise); and a
successfully fetched and read file's recorded state is `valid` iff its
content contains at least one non-whitespace character. -/
theorem validate_csv_default_validator (c : List Char) :
    (validate_csv c).warnings = [] ∧
    ((validate_csv c).errors = [("CSV content is empty").data] ∧
        (validate_csv c).info = [] ↔ ∀ ch ∈ c, pyIsSpace ch = true) ∧
    ((validate_csv c).errors = [] ∧
        (validate_csv c).info = [("CSV read successfully").data] ↔
      ∃ ch ∈ c, pyIsSpace ch = false) ∧
    (∀ o : StepOracle, o.fetchOk = true → o.readOk = true → o.logOk = true →
      ∀ fn et, ((process_file o fn c et).log.head?.map Record.state) =
          some VState.valid ↔ ∃ ch ∈ c, pyIsSpace ch = false) := by
  have hiff : (pyStrip c).isEmpty = true ↔ ∀ ch ∈ c, pyIsSpace ch = true := by
    rw [List.isEmpty_iff]
    exact pyStrip_eq_nil_iff c
  have hnotiff : (pyStrip c).isEmpty = false ↔ ∃ ch ∈ c, pyIsSpace ch = false := by
    constructor
    · intro h
      by_contra hab
      push_neg at hab
      have hall : ∀ ch ∈ c, pyIsSpace ch = true := fun ch hch =>
        eq_true_of_ne_false (hab ch hch)
      rw [hiff.mpr hall] at h
      cases h
    · intro ⟨ch, hch, hf⟩
      by_cases h1 : (pyStrip c).isEmpty = true
      · exfalso
        have := hiff.mp h1 ch hch
        rw [this] at hf
        cases hf
      · exact Bool.eq_false_iff.mpr h1
  by_cases hempty : (pyStrip c).isEmpty = true
  · have hv : validate_csv c =
        { errors := [("CSV content is empty").data], warnings := [], info := [] } := by
      simp [validate_csv, hempty]
    refine ⟨by rw [hv], ?_, ?_, ?_⟩
    · constructor
      · intro _
        exact hiff.mp hempty
      · intro _
        rw [hv]
        exact ⟨rfl, rfl⟩
    · constructor
      · intro ⟨h1, _⟩
        rw [hv] at h1
        exact absurd h1 (by simp)
      · intro h
        obtain ⟨ch, hch, hf⟩ := h
        have := hiff.mp hempty ch hch
        rw [this] at hf
        cases hf
    · intro o hf hr hl fn et
      constructor
      · intro h
        exfalso
        by_cases hdb : o.dbOk = true <;>
          simp [process_file, hf, hr, hl, hdb, hv] at h
      · intro ⟨ch, hch, hfch⟩
        exfalso
        have := hiff.mp hempty ch hch
        rw [this] at hfch
        cases hfch
  · have hempty2 : (pyStrip c).isEmpty = false := Bool.eq_false_iff.mpr hempty
    have hv : validate_csv c =
        { errors := [], warnings := [], info := [("CSV read successfully").data] } := by
      simp [validate_csv, hempty2]
    refine ⟨by rw [hv], ?_, ?_, ?_⟩
    · constructor
      · intro ⟨h1, _⟩
        rw [hv] at h1
        exact absurd h1 (by simp)
      · intro hall
        obtain ⟨ch, hch, hf⟩ := hnotiff.mp hempty2
        rw [hall ch hch] at hf
        cases hf
    · constructor
      · intro _
        exact hnotiff.mp hempty2
      · intro _
        rw [hv]
        exact ⟨rfl, rfl⟩
    · intro o hf hr hl fn et
      constructor
      · intro _
        exact hnotiff.mp hempty2
      · intro _
        by_cases hdb : o.dbOk = true <;>
          simp [process_file, hf, hr, hl, hdb, hv]

/-- Witness for `validate_csv_default_validator`, at content `"a,b"` and an
all-successful step oracle. -/
theorem validate_csv_default_validator_witness :
    (validate_csv (("a,b").data)).errors = [] ∧
    (validate_csv (("a,b").data)).info = [("CSV read successfully").data] ∧
    ((process_file ⟨true, true, true, true, true⟩ (("x.csv").data)
        (("a,b").data) []).log.head?.map Record.state) = some VState.valid := by
  have h := validate_csv_default_validator (("a,b").data)
  have hx : ∃ ch ∈ ("a,b").data, pyIsSpace ch = false := by decide
  obtain ⟨-, -, h3, h4⟩ := h
  obtain ⟨he, hi⟩ := h3.mpr hx
  exact ⟨he, hi,
    (h4 ⟨true, true, true, true, true⟩ rfl rfl rfl (("x.csv").data) []).mpr hx⟩

/-- Claim C4: `safe_sftp_operation(func, max_retries)` invokes `func` at
most `max_retries` times; if the first success is at invocation `i + 1`
(zero-based index `i < max_retries`), it returns that attempt's result
after exactly `i + 1` invocations; if all `max_retries` attempts fail, it
raises a failure carrying the last underlying error, after exactly
`max_retries` invocations — attempt `max_retries + 1` is never made. -/
theorem safe_sftp_operation_retry_contract {E A : Type}
    (func : Nat → Except E A) (m : Nat) :
    (safe_sftp_operation func m).1 ≤ m ∧
    (∀ i v, i < m → func i = .ok v → (∀ j, j < i → ∃ e, func j = .error e) →
      safe_sftp_operation func m = (i + 1, some (.ok v))) ∧
    (∀ err : Nat → E, 0 < m → (∀ j, j < m → func j = .error (err j)) →
      safe_sftp_operation func m = (m, some (.error (err (m - 1))))) := by
  refine ⟨?_, ?_, ?_⟩
  · exact safeLoop_count_le func m m 0 (by omega) (by omega)
  · intro i v hi hok hfail
    exact safeLoop_success func m i v hi hok i 0 (by omega) (by omega)
      (fun j _ hji => hfail j hji)
  · intro err hm hfail
    exact safeLoop_exhaust func m err hm hfail (m - 1) 0 hm (by omega)

/-- Oracle used by retry witnesses: the first attempt fails, every later
attempt returns `7`. -/
def retryProbe : Nat → Except (List Char) Nat :=
  fun j => if j = 0 then .error (("boom").data) else .ok 7

/-- Witness for `safe_sftp_operation_retry_contract`: with `max_retries =
3` and an operation failing once then succeeding, the call returns `.ok 7`
after exactly 2 invocations; with an always-failing operation it raises the
last error after exactly 3 invocations. -/
theorem safe_sftp_operation_retry_contract_witness :
    safe_sftp_operation retryProbe 3 = (2, some (.ok 7)) ∧
    safe_sftp_operation (fun j => (.error j : Except Nat Nat)) 3 =
      (3, some (.error 2)) := by
  constructor
  · exact (safe_sftp_operation_retry_contract retryProbe 3).2.1 1 7
      (by omega) rfl
      (fun j hj => ⟨("boom").data, by
        have hj0 : j = 0 := by omega
        rw [hj0]
        rfl⟩)
  · exact (safe_sftp_operation_retry_contract
      (fun j => (.error j : Except Nat Nat)) 3).2.2 (fun j => j)
      (by omega) (fun j _ => rfl)

/-- Counterexample to claim C2 as stated: when the database persist step
fails after a successful log append, the single `process_file` call
appends two records to the log (the outcome record and then an error
record), not exactly one. -/
theorem process_file_two_records_on_db_failure :
    (process_file ⟨true, true, true, false, true⟩ (("a.csv").data)
        (("x").data) (("database is locked").data)).log.length = 2 ∧
    ¬ (process_file ⟨true, true, true, false, true⟩ (("a.csv").data)
        (("x").data) (("database is locked").data)).log.length = 1 := by
  constructor
  · rfl
  · intro h
    cases h

/-- Claim C2, amended: provided the `except`-block log append succeeds,
every dispatched descriptor yields at least one log record, and exactly
one — whichever of fetch, local read, validation or the primary log append
fails — except when the database persist fails after a successful log
append, in which case exactly two records are appended. -/
theorem process_file_record_count (o : StepOracle) (fn c et : List Char)
    (hrec : o.logErrOk = true) :
    (process_file o fn c et).log.length =
      (if o.fetchOk && o.readOk && o.logOk && !o.dbOk then 2 else 1) := by
  obtain ⟨f, r, lg, db, le⟩ := o
  cases hrec
  cases f <;> cases r <;> cases lg <;> cases db <;>
    simp [process_file, exceptBlock, errorRecord]

/-- Witness for `process_file_record_count`: with every step succeeding,
exactly one record is appended. -/
theorem process_file_record_count_witness :
    (process_file ⟨true, true, true, true, true⟩ (("a.csv").data)
        (("x").data) []).log.length = 1 := by
  have h := process_file_record_count ⟨true, true, true, true, true⟩
    (("a.csv").data) (("x").data) [] rfl
  simpa using h

/-! ## `generate_summary_report`  (sftp-csv-validator.py, lines 240–257)

The log file is a list of lines; `next(log)` skips the header (raising
`StopIteration`, modelled as `none`, on an empty file) and every further
line increments `total_files`, then is tested with the Python substring
checks `"valid" in line` / `elif "invalid" in line`. -/

/-- One iteration of the counting loop of `generate_summary_report`:
accumulator `(total_files, valid_files, invalid_files)`. -/
def summaryStep (acc : Nat × Nat × Nat) (line : List Char) : Nat × Nat × Nat :=
  let total := acc.1 + 1
  if pyContains line (("valid").data) then (total, acc.2.1 + 1, acc.2.2)
  else if pyContains line (("invalid").data) then (total, acc.2.1, acc.2.2 + 1)
  else (total, acc.2.1, acc.2.2)

/-- Embedding of `generate_summary_report(log_file)`: the returned summary
holds `(total_files, valid_files, invalid_files)` — the source computes no
error count. -/
def generate_summary_report (fileLines : List (List Char)) :
    Option (Nat × Nat × Nat) :=
  match fileLines with
  | [] => none
  | _ :: records => some (records.foldl summaryStep (0, 0, 0))

theorem summaryStep_invalid_unchanged (acc : Nat × Nat × Nat)
    (line : List Char) : (summaryStep acc line).2.2 = acc.2.2 := by
  unfold summaryStep
  by_cases hv : pyContains line (("valid").data) = true
  · simp [hv]
  · have hnv : pyContains line (("invalid").data) = false := by
      by_contra hab
      have hin : (("invalid").data) <:+: line := by
        have := eq_true_of_ne_false hab
        exact of_decide_eq_true this
      have hv2 : (("valid").data) <:+: line :=
        List.IsInfix.trans (by decide) hin
      exact hv (decide_eq_true hv2)
    simp [hv, hnv]

theorem summary_invalid_count_zero (records : List (List Char)) :
    ∀ acc : Nat × Nat × Nat,
      (records.foldl summaryStep acc).2.2 = acc.2.2 := by
  induction records with
  | nil => intro acc; rfl
  | cons line rest ih =>
    intro acc
    rw [List.foldl_cons, ih (summaryStep acc line),
      summaryStep_invalid_unchanged]

/-- Claim C1 (code bug): `generate_summary_report` does not classify
records into valid/invalid/error.  Because `"valid"` is a substring of
`"invalid"`, the `elif "invalid" in line` branch is unreachable: an
explicit invalid record is counted in `valid_files`, the invalid count is
`0` on every input, error records are counted in no bucket at all, and the
summary carries no error count, so the three claimed counts cannot sum to
the total. -/
theorem generate_summary_report_miscounts :
    generate_summary_report
        [("File,Validation State,Errors,Warnings,Info").data,
         ("a.csv,invalid,[\x22CSV content is empty\x22],[],[]").data] =
      some (1, 1, 0) ∧
    generate_summary_report
        [("File,Validation State,Errors,Warnings,Info").data,
         ("a.csv,invalid,[\x22CSV content is empty\x22],[],[]").data,
         ("b.csv,error,boom,,").data] =
      some (2, 1, 0) ∧
    (∀ fileLines : List (List Char),
      ((generate_summary_report fileLines).getD (0, 0, 0)).2.2 = 0) := by
  refine ⟨by decide, by decide, ?_⟩
  intro fileLines
  cases fileLines with
  | nil => rfl
  | cons header records =>
    simp only [generate_summary_report, Option.getD_some]
    exact summary_invalid_count_zero records (0, 0, 0)

/-! ## Batch partitioning  (fetch_and_delete_files_in_parallel.py lines
85–88; delete_csv_files_via_sftp.py lines 32–34)

Both orchestrators run `for i in range(0, len(files), BATCH_SIZE):
batch = files[i:i + BATCH_SIZE]` with `BATCH_SIZE = 50`; the sequence of
slices is embedded as `pyBatches`. -/

def BATCH_SIZE : Nat := 50

/-- Structural-recursion helper for `pyBatches`: `fuel` only bounds the
number of loop iterations (each iteration consumes at least one element
when `0 < bs`, so `fuel = files.length` always suffices); it makes the
recursion structural and hence kernel-computable. -/
def pyBatchesAux (bs : Nat) : Nat → List α → List (List α)
  | _, [] => []
  | 0, _ :: _ => []
  | fuel + 1, f :: rest =>
    (f :: rest).take bs :: pyBatchesAux bs fuel ((f :: rest).drop bs)

/-- The list of slices `files[i : i + bs]` for `i = 0, bs, 2*bs, ...`,
embedding the loop `for i in range(0, len(files), BATCH_SIZE)`. -/
def pyBatches (bs : Nat) (files : List α) : List (List α) :=
  pyBatchesAux bs files.length files

theorem pyBatchesAux_fuel (bs : Nat) (hbs : 0 < bs) :
    ∀ fuel₁ fuel₂ (files : List α), files.length ≤ fuel₁ →
      files.length ≤ fuel₂ →
      pyBatchesAux bs fuel₁ files = pyBatchesAux bs fuel₂ files := by
  intro fuel₁
  induction fuel₁ with
  | zero =>
    intro fuel₂ files h1 h2
    cases files with
    | nil => cases fuel₂ <;> rfl
    | cons f rest => simp at h1
  | succ n ih =>
    intro fuel₂ files h1 h2
    cases files with
    | nil => cases fuel₂ <;> rfl
    | cons f rest =>
      cases fuel₂ with
      | zero => simp at h2
      | succ m =>
        simp only [pyBatchesAux]
        rw [ih m ((f :: rest).drop bs) (by simp at h1 ⊢; omega)
          (by simp at h2 ⊢; omega)]

theorem pyBatches_nil (bs : Nat) : pyBatches bs ([] : List α) = [] := rfl

theorem pyBatches_cons (bs : Nat) (hbs : 0 < bs) (f : α) (rest : List α) :
    pyBatches bs (f :: rest) =
      (f :: rest).take bs :: pyBatches bs ((f :: rest).drop bs) := by
  show pyBatchesAux bs (rest.length + 1) (f :: rest) = _
  simp only [pyBatchesAux]
  rw [pyBatchesAux_fuel bs hbs rest.length ((f :: rest).drop bs).length
    ((f :: rest).drop bs) (by simp; omega) (Nat.le_refl _)]
  rfl

theorem pyBatches_flatten (bs : Nat) (hbs : 0 < bs) :
    ∀ (files : List α), (pyBatches bs files).flatten = files := by
  have key : ∀ n (files : List α), files.length = n →
      (pyBatches bs files).flatten = files := by
    intro n
    induction n using Nat.strong_induction_on with
    | _ n ih =>
      intro files hn
      cases files with
      | nil => rfl
      | cons f rest =>
        rw [pyBatches_cons bs hbs]
        rw [List.flatten_cons, ih ((f :: rest).drop bs).length
          (by subst hn; simp; omega) _ rfl]
        exact List.take_append_drop bs (f :: rest)
  intro files
  exact key files.length files rfl

theorem pyBatches_ne_nil (bs : Nat) (hbs : 0 < bs) (files : List α)
    (hf : files ≠ []) : pyBatches bs files ≠ [] := by
  cases files with
  | nil => exact absurd rfl hf
  | cons f rest =>
    rw [pyBatches_cons bs hbs]
    exact List.cons_ne_nil _ _

theorem pyBatches_length (bs : Nat) (hbs : 0 < bs) :
    ∀ (files : List α), (pyBatches bs files).length =
      (files.length + bs - 1) / bs := by
  have key : ∀ n (files : List α), files.length = n →
      (pyBatches bs files).length = (files.length + bs - 1) / bs := by
    intro n
    induction n using Nat.strong_induction_on with
    | _ n ih =>
      intro files hn
      cases files with
      | nil =>
        rw [pyBatches_nil]
        simp only [List.length_nil]
        rw [Nat.div_eq_of_lt (by omega)]
      | cons f rest =>
        rw [pyBatches_cons bs hbs]
        simp only [List.length_cons]
        rw [ih ((f :: rest).drop bs).length (by subst hn; simp; omega) _ rfl]
        simp only [List.length_drop, List.length_cons]
        rcases Nat.lt_or_ge (rest.length + 1) bs with hc | hc
        · have h1 : rest.length + 1 - bs = 0 := by omega
          rw [h1]
          have h2 : (0 + bs - 1) / bs = 0 := Nat.div_eq_of_lt (by omega)
          have h3 : (rest.length + 1 + bs - 1) / bs = 1 := by
            have hx : rest.length + 1 + bs - 1 = rest.length + bs := by omega
            rw [hx, Nat.add_div_right _ hbs, Nat.div_eq_of_lt (by omega)]
          rw [h2, h3]
        · have h1 : rest.length + 1 - bs + bs - 1 = rest.length := by omega
          have h2 : rest.length + 1 + bs - 1 = rest.length + bs := by omega
          rw [h1, h2, Nat.add_div_right _ hbs]
  intro files
  exact key files.length files rfl

theorem pyBatches_dropLast_sizes (bs : Nat) (hbs : 0 < bs) :
    ∀ (files : List α), ∀ b ∈ (pyBatches bs files).dropLast,
      b.length = bs := by
  have key : ∀ n (files : List α), files.length = n →
      ∀ b ∈ (pyBatches bs files).dropLast, b.length = bs := by
    intro n
    induction n using Nat.strong_induction_on with
    | _ n ih =>
      intro files hn
      cases files with
      | nil =>
        intro b hb
        rw [pyBatches_nil] at hb
        simp at hb
      | cons f rest =>
        intro b hb
        rw [pyBatches_cons bs hbs] at hb
        cases hdrop : pyBatches bs ((f :: rest).drop bs) with
        | nil =>
          rw [hdrop, List.dropLast_single] at hb
          simp at hb
        | cons b2 bl =>
          rw [hdrop, List.dropLast_cons₂] at hb
          rcases List.mem_cons.mp hb with h1 | h1
          · subst h1
            have hlen : bs ≤ (f :: rest).length := by
              by_contra hab
              push_neg at hab
              have hemp : (f :: rest).drop bs = [] :=
                List.drop_eq_nil_of_le (Nat.le_of_lt hab)
              rw [hemp] at hdrop
              simp [pyBatches_nil] at hdrop
            rw [List.length_take]
            omega
          · rw [← hdrop] at h1
            exact ih ((f :: rest).drop bs).length (by subst hn; simp; omega)
              _ rfl b h1
  intro files
  exact key files.length files rfl

theorem pyBatches_getLast_size (bs : Nat) (hbs : 0 < bs) :
    ∀ (files : List α) (b : List α),
      (pyBatches bs files).getLast? = some b →
      b.length = if files.length % bs = 0 then bs else files.length % bs := by
  have key : ∀ n (files : List α), files.length = n → ∀ b : List α,
      (pyBatches bs files).getLast? = some b →
      b.length = if files.length % bs = 0 then bs else files.length % bs := by
    intro n
    induction n using Nat.strong_induction_on with
    | _ n ih =>
      intro files hn
      cases files with
      | nil =>
        intro b hb
        simp [pyBatches_nil] at hb
      | cons f rest =>
        intro b hb
        rw [pyBatches_cons bs hbs] at hb
        by_cases hdrop : (f :: rest).drop bs = []
        · have hlen : (f :: rest).length ≤ bs := by
            have := List.drop_eq_nil_iff.mp hdrop
            omega
          rw [hdrop] at hb
          rw [pyBatches_nil] at hb
          simp only [List.getLast?_singleton, Option.some.injEq] at hb
          subst hb
          rw [List.length_take]
          rcases Nat.eq_or_lt_of_le hlen with hc | hc
          · rw [hc, Nat.mod_self, if_pos rfl, Nat.min_self]
          · rw [Nat.mod_eq_of_lt hc, if_neg (by simp),
              Nat.min_eq_right (Nat.le_of_lt hc)]
        · have hsub : pyBatches bs ((f :: rest).drop bs) ≠ [] :=
            pyBatches_ne_nil bs hbs _ hdrop
          cases hpbs : pyBatches bs ((f :: rest).drop bs) with
          | nil => exact absurd hpbs hsub
          | cons y t =>
            rw [hpbs, List.getLast?_cons_cons] at hb
            rw [← hpbs] at hb
            have hge : bs ≤ (f :: rest).length := by
              by_contra hab
              push_neg at hab
              exact hdrop (List.drop_eq_nil_of_le (Nat.le_of_lt hab))
            have hmod : (f :: rest).length % bs =
                ((f :: rest).drop bs).length % bs := by
              rw [List.length_drop]
              exact Nat.mod_eq_sub_mod hge
            rw [hmod]
            exact ih ((f :: rest).drop bs).length (by subst hn; simp; omega)
              _ rfl b hb
  intro files
  exact key files.length files rfl

/-- Claim C7: the orchestrator partitions the `n` discovered files, in
order, into `ceil(n / 50)` contiguous batches; every non-final batch has
exactly 50 files, the final batch has `n mod 50` files when 50 does not
divide `n` (and 50 otherwise); the batches concatenate back to the
original list, so every file occurs in exactly one batch; 120 files yield
batch sizes `[50, 50, 20]`. -/
theorem batch_partition (files : List α) :
    (pyBatches BATCH_SIZE files).flatten = files ∧
    (pyBatches BATCH_SIZE files).length = (files.length + 49) / 50 ∧
    (∀ b ∈ (pyBatches BATCH_SIZE files).dropLast, b.length = 50) ∧
    (∀ b : List α, (pyBatches BATCH_SIZE files).getLast? = some b →
      b.length = if files.length % 50 = 0 then 50 else files.length % 50) ∧
    (pyBatches BATCH_SIZE (List.range 120)).map List.length = [50, 50, 20] := by
  have h50 : (0 : Nat) < 50 := by omega
  exact ⟨pyBatches_flatten 50 h50 files,
    pyBatches_length 50 h50 files,
    pyBatches_dropLast_sizes 50 h50 files,
    pyBatches_getLast_size 50 h50 files,
    by decide⟩

set_option maxRecDepth 4000 in
/-- Witness for `batch_partition`: the 120-file scenario, discharging the
`getLast?` hypothesis at the concrete batch `[100, ..., 119]`. -/
theorem batch_partition_witness :
    (pyBatches BATCH_SIZE (List.range 120)).flatten = List.range 120 ∧
    (List.drop 100 (List.range 120)).length = 120 % 50 := by
  have h := batch_partition (List.range 120)
  refine ⟨h.1, ?_⟩
  have hlast := h.2.2.2.1 (List.drop 100 (List.range 120)) (by decide)
  rw [hlast]
  decide

/-! ## Fetch-then-delete  (fetch_and_delete_files_in_parallel.py lines
40–53; delete_csv_files_via_sftp.py lines 26–51)

`fetch_and_delete_file` embeds the shared per-file body
`try: sftp.get(...); sftp.remove(...) except: log` as the trace of SFTP
calls it issues, driven by a success oracle per operation; the first
failing operation raises, aborting the rest of the `try` block (the
`except` block only logs, so the exception is swallowed and the trace
ends).  `fetch_and_delete_files` embeds the serial batch loop of
`delete_csv_files_via_sftp.py`, whose loop body is the identical
`try/get/remove/except` code, with each issued call tagged by the filename
of the iteration that issued it. -/

/-- A remote SFTP call: `sftp.get(remote, local)` or
`sftp.remove(remote)`. -/
inductive SftpOp where
  | get : List Char → List Char → SftpOp
  | remove : List Char → SftpOp
deriving DecidableEq, Repr

/-- Run a `try`-block of SFTP calls: each call is issued in order; the
first one the oracle fails raises, so later calls are not issued. -/
def runUntilFailure (oracle : SftpOp → Bool) : List SftpOp → List SftpOp
  | [] => []
  | op :: rest =>
    if oracle op then op :: runUntilFailure oracle rest else [op]

/-- Embedding of `fetch_and_delete_file(sftp, remote_directory, filename)`:
the trace of SFTP calls issued for one file. -/
def fetch_and_delete_file (oracle : SftpOp → Bool)
    (remote_directory filename local_directory : List Char) : List SftpOp :=
  let remote_path := pathJoin remote_directory filename
  let local_path := pathJoin local_directory filename
  runUntilFailure oracle [SftpOp.get remote_path local_path,
    SftpOp.remove remote_path]

/-- Embedding of `fetch_and_delete_files(sftp, remote_directory,
local_directory)` applied to the listed `files`: the serial batch loop,
with each SFTP call tagged by the filename whose iteration issued it.
`oracle fn` drives the calls of file `fn`. -/
def fetch_and_delete_files (oracle : List Char → SftpOp → Bool)
    (remote_directory local_directory : List Char)
    (files : List (List Char)) : List (List Char × SftpOp) :=
  ((pyBatches BATCH_SIZE files).map (fun batch =>
      (batch.map (fun fn =>
        (fetch_and_delete_file (oracle fn) remote_directory fn
            local_directory).map (fun op => (fn, op)))).flatten)).flatten

theorem runUntilFailure_two (oracle : SftpOp → Bool) (op1 op2 : SftpOp) :
    runUntilFailure oracle [op1, op2] =
      if oracle op1 then
        (if oracle op2 then [op1, op2] else [op1, op2])
      else [op1] := by
  by_cases h1 : oracle op1 <;> by_cases h2 : oracle op2 <;>
    simp [runUntilFailure, h1, h2]

theorem fetch_and_delete_file_trace (oracle : SftpOp → Bool)
    (rd fn ld : List Char) :
    fetch_and_delete_file oracle rd fn ld =
      if oracle (SftpOp.get (pathJoin rd fn) (pathJoin ld fn)) then
        [SftpOp.get (pathJoin rd fn) (pathJoin ld fn),
         SftpOp.remove (pathJoin rd fn)]
      else [SftpOp.get (pathJoin rd fn) (pathJoin ld fn)] := by
  by_cases h1 : oracle (SftpOp.get (pathJoin rd fn) (pathJoin ld fn)) <;>
    simp [fetch_and_delete_file, runUntilFailure, h1]

theorem flatten_map_flatten (B : List (List β)) (g : β → List γ) :
    ((B.map (fun batch => (batch.map g).flatten)).flatten) =
      ((B.flatten.map g).flatten) := by
  induction B with
  | nil => rfl
  | cons batch rest ih =>
    simp only [List.map_cons, List.flatten_cons, List.map_append,
      List.flatten_append, ih]

theorem fetch_and_delete_files_eq (oracle : List Char → SftpOp → Bool)
    (rd ld : List Char) (files : List (List Char)) :
    fetch_and_delete_files oracle rd ld files =
      ((files.map (fun fn =>
        (fetch_and_delete_file (oracle fn) rd fn ld).map
          (fun op => (fn, op)))).flatten) := by
  unfold fetch_and_delete_files
  rw [flatten_map_flatten, pyBatches_flatten BATCH_SIZE (by decide) files]

/-- Claim C3: for every file with deletion enabled, `sftp.remove` is
invoked only after `sftp.get` for that file has returned success, and a
fetch failure never triggers the delete: in the per-file body the trace
contains no `remove` when the fetch fails, and any `remove` in it is
preceded by a successful `get`; in the serial batch loop, any tagged
`remove` for a file implies that file's fetch succeeded and its
`get` call precedes its `remove` call in the whole run trace. -/
theorem delete_only_after_confirmed_fetch
    (oracle : SftpOp → Bool) (oracles : List Char → SftpOp → Bool)
    (rd fn ld : List Char) (files : List (List Char)) :
    (oracle (SftpOp.get (pathJoin rd fn) (pathJoin ld fn)) = false →
      ∀ p, SftpOp.remove p ∉ fetch_and_delete_file oracle rd fn ld) ∧
    (∀ p, SftpOp.remove p ∈ fetch_and_delete_file oracle rd fn ld →
      oracle (SftpOp.get (pathJoin rd fn) (pathJoin ld fn)) = true ∧
      fetch_and_delete_file oracle rd fn ld =
        [SftpOp.get (pathJoin rd fn) (pathJoin ld fn),
         SftpOp.remove (pathJoin rd fn)]) ∧
    (∀ g p,
      (g, SftpOp.remove p) ∈ fetch_and_delete_files oracles rd ld files →
      oracles g (SftpOp.get (pathJoin rd g) (pathJoin ld g)) = true ∧
      List.Sublist
        [(g, SftpOp.get (pathJoin rd g) (pathJoin ld g)),
         (g, SftpOp.remove (pathJoin rd g))]
        (fetch_and_delete_files oracles rd ld files)) := by
  refine ⟨?_, ?_, ?_⟩
  · intro hfail p hp
    rw [fetch_and_delete_file_trace, hfail] at hp
    simp at hp
  · intro p hp
    rw [fetch_and_delete_file_trace] at hp
    by_cases h : oracle (SftpOp.get (pathJoin rd fn) (pathJoin ld fn)) = true
    · refine ⟨h, ?_⟩
      rw [fetch_and_delete_file_trace, if_pos h]
    · rw [if_neg h] at hp
      simp at hp
  · intro g p hp
    rw [fetch_and_delete_files_eq] at hp
    rw [List.mem_flatten] at hp
    obtain ⟨seg, hseg, hmem⟩ := hp
    rw [List.mem_map] at hseg
    obtain ⟨fn2, hfn2, hsegeq⟩ := hseg
    subst hsegeq
    rw [List.mem_map] at hmem
    obtain ⟨op, hop, hpair⟩ := hmem
    have hg : fn2 = g := congrArg Prod.fst hpair
    have hopr : op = SftpOp.remove p := congrArg Prod.snd hpair
    subst hg
    subst hopr
    rw [fetch_and_delete_file_trace] at hop
    by_cases h : oracles fn2 (SftpOp.get (pathJoin rd fn2) (pathJoin ld fn2)) = true
    · refine ⟨h, ?_⟩
      rw [if_pos h] at hop
      have hp2 : p = pathJoin rd fn2 := by
        rcases List.mem_cons.mp hop with h1 | h1
        · cases h1
        · rcases List.mem_cons.mp h1 with h2 | h2
          · injection h2
          · simp at h2
      subst hp2
      have hseg2 : (List.map (fun op => (fn2, op))
          (fetch_and_delete_file (oracles fn2) rd fn2 ld)) ∈
          files.map (fun fn3 =>
            (fetch_and_delete_file (oracles fn3) rd fn3 ld).map
              (fun op => (fn3, op))) :=
        List.mem_map_of_mem _ hfn2
      have hsub := List.sublist_flatten_of_mem hseg2
      rw [fetch_and_delete_file_trace, if_pos h] at hsub
      rw [fetch_and_delete_files_eq]
      exact hsub
    · rw [if_neg h] at hop
      simp at hop

/-- Oracle used by the delete-after-fetch witness: every call for file
`a.csv` succeeds, every call for any other file fails. -/
def c3probe : List Char → SftpOp → Bool :=
  fun fn _ => decide (fn = (("a.csv").data))

/-- Witness for `delete_only_after_confirmed_fetch`: in a two-file run
where only the fetch of `a.csv` succeeds, the tagged trace contains
`a.csv`'s remove, its fetch succeeded, and its get precedes its remove. -/
theorem delete_only_after_confirmed_fetch_witness :
    c3probe (("a.csv").data)
        (SftpOp.get (pathJoin (("/data").data) (("a.csv").data))
          (pathJoin (("/dl").data) (("a.csv").data))) = true ∧
    List.Sublist
      [((("a.csv").data),
        SftpOp.get (pathJoin (("/data").data) (("a.csv").data))
          (pathJoin (("/dl").data) (("a.csv").data))),
       ((("a.csv").data),
        SftpOp.remove (pathJoin (("/data").data) (("a.csv").data)))]
      (fetch_and_delete_files c3probe (("/data").data) (("/dl").data)
        [("a.csv").data, ("b.csv").data]) :=
  (delete_only_after_confirmed_fetch (c3probe (("a.csv").data)) c3probe
      (("/data").data) (("a.csv").data) (("/dl").data)
      [("a.csv").data, ("b.csv").data]).2.2 (("a.csv").data)
    (pathJoin (("/data").data) (("a.csv").data)) (by decide)

/-! ## `list_files_recursive`  (sftp-csv-validator.py, lines 126–146)

The remote namespace under one directory is embedded as an `RTree` in
first-child/next-sibling form: an `RTree` value is one directory listing
(a sequence of entries in `listdir_attr` order); a `dirE` entry carries a
flag saying whether listing that subdirectory succeeds (the `try` around
`listdir_attr` swallows the failure and yields nothing from that subtree),
its children listing, and the remaining entries of the current listing.
The entry kind test `S_ISDIR(entry.st_mode)` is embedded by the
constructor (`fileE` for non-directories). -/

inductive RTree where
  | nil : RTree
  | fileE : List Char → RTree → RTree
  | dirE : List Char → Bool → RTree → RTree → RTree
deriving DecidableEq, Repr

/-- A discovered file: the dict `{"path": remote_path, "filename":
os.path.basename(remote_path)}`. -/
structure FileDesc where
  path : List Char
  filename : List Char
deriving DecidableEq, Repr

/-- The `_recurse` traversal over one directory listing: files are kept
iff `remote_path.endswith(FILE_EXTENSION) and KEYWORD in remote_path`;
directory entries are descended into (when their listing succeeds) rather
than matched. -/
def recurseListing (ext keyword : List Char) (path : List Char) :
    RTree → List FileDesc
  | .nil => []
  | .fileE name rest =>
    let remote_path := pathJoin path name
    (if pyEndsWith remote_path ext && pyContains remote_path keyword then
      [{ path := remote_path, filename := basename remote_path }]
    else []) ++ recurseListing ext keyword path rest
  | .dirE name ok children rest =>
    (if ok then recurseListing ext keyword (pathJoin path name) children
     else []) ++ recurseListing ext keyword path rest

/-- Embedding of `list_files_recursive(sftp, remote_dir)`: `ok` says
whether listing the root itself succeeds. -/
def list_files_recursive (ext keyword remote_dir : List Char) (ok : Bool)
    (listing : RTree) : List FileDesc :=
  if ok then recurseListing ext keyword remote_dir listing else []

/-- Spec-side definition (for the refinement statement of the discovery
claim): the descriptors of all reachable non-directory entries, with no
filtering, ignoring listing-failure flags. -/
def reachableFiles (path : List Char) : RTree → List FileDesc
  | .nil => []
  | .fileE name rest =>
    { path := pathJoin path name, filename := basename (pathJoin path name) }
      :: reachableFiles path rest
  | .dirE name _ children rest =>
    reachableFiles (pathJoin path name) children ++ reachableFiles path rest

/-- Every directory listing in the tree succeeds. -/
def allOk : RTree → Bool
  | .nil => true
  | .fileE _ rest => allOk rest
  | .dirE _ ok children rest => ok && allOk children && allOk rest

theorem recurseListing_eq_filter (ext keyword : List Char) :
    ∀ (t : RTree) (path : List Char), allOk t = true →
      recurseListing ext keyword path t =
        (reachableFiles path t).filter
          (fun d => pyEndsWith d.path ext && pyContains d.path keyword) := by
  intro t
  induction t with
  | nil => intro path _; rfl
  | fileE name rest ih =>
    intro path hok
    rw [recurseListing, reachableFiles, List.filter_cons]
    simp only [allOk] at hok
    rw [ih path hok]
    by_cases hc : (pyEndsWith (pathJoin path name) ext &&
        pyContains (pathJoin path name) keyword) = true <;> simp [hc]
  | dirE name ok children rest ihc ihr =>
    intro path hok
    simp only [allOk, Bool.and_eq_true] at hok
    obtain ⟨⟨hok1, hok2⟩, hok3⟩ := hok
    rw [recurseListing, reachableFiles, List.filter_append]
    rw [if_pos hok1, ihc (pathJoin path name) hok2, ihr path hok3]

/-- Claim C5: recursive discovery returns exactly the reachable
non-directory entries whose remote path both ends with the configured
extension suffix and contains the configured keyword as a substring;
directory entries are descended into rather than matched; with extension
`.csv` and keyword `target`, `/data/target_report.csv` is included and
`/data/other_report.csv` is excluded. -/
theorem discovery_filter_correct (ext keyword remote_dir : List Char)
    (listing : RTree) (hok : allOk listing = true) :
    (∀ d : FileDesc,
      d ∈ list_files_recursive ext keyword remote_dir true listing ↔
      (d ∈ reachableFiles remote_dir listing ∧
        pyEndsWith d.path ext = true ∧ pyContains d.path keyword = true)) ∧
    list_files_recursive ((".csv").data) (("target").data) (("/data").data)
        true
        (RTree.fileE (("target_report.csv").data)
          (RTree.fileE (("other_report.csv").data) RTree.nil)) =
      [{ path := ("/data/target_report.csv").data,
         filename := ("target_report.csv").data }] := by
  constructor
  · intro d
    rw [list_files_recursive, if_pos rfl,
      recurseListing_eq_filter ext keyword listing remote_dir hok,
      List.mem_filter]
    rw [Bool.and_eq_true]
  · decide

/-- Witness for `discovery_filter_correct`: the matching file of the
concrete two-file listing is discovered. -/
theorem discovery_filter_correct_witness :
    ({ path := ("/data/target_report.csv").data,
       filename := ("target_report.csv").data } : FileDesc) ∈
      list_files_recursive ((".csv").data) (("target").data)
        (("/data").data) true
        (RTree.fileE (("target_report.csv").data)
          (RTree.fileE (("other_report.csv").data) RTree.nil)) := by
  have h := discovery_filter_correct ((".csv").data) (("target").data)
    (("/data").data)
    (RTree.fileE (("target_report.csv").data)
      (RTree.fileE (("other_report.csv").data) RTree.nil)) (by decide)
  exact (h.1 _).mpr ⟨by decide, by decide, by decide⟩

/-! ## `list_csv_files`  (fetch_and_delete_files_in_parallel.py lines
27–37; identical in delete_csv_files_via_sftp.py lines 14–24)

The non-recursive lister of the other two scripts: one directory listing,
keeping entry names ending in `.csv` whose mode bit `0o40000` (= 16384,
the directory bit) is clear; on a listing exception it logs and returns
the empty list. -/

/-- One entry of `listdir_attr`. -/
structure DirEntry where
  filename : List Char
  st_mode : Nat
deriving DecidableEq, Repr

/-- Embedding of `list_csv_files(sftp, directory)`: `ok` says whether
`listdir_attr` succeeds. -/
def list_csv_files (ok : Bool) (entries : List DirEntry) :
    List (List Char) :=
  if ok then
    (entries.filter (fun e =>
      pyEndsWith e.filename ((".csv").data) &&
        (e.st_mode &&& 16384 == 0))).map DirEntry.filename
  else []

/-! ## The run entry point  (sftp-csv-validator.py, lines 187–207)

`fetch_and_validate_sftp_files` truncates the log file to the header line
(`open(LOG_FILE, "w")`), opens the connection, discovers files under every
configured root and runs one `process_file` task per descriptor.  The log
file and `results` table are the run state; the thread pool's append order
is abstracted as discovery order (order across files is unspecified by the
design; the interleaving itself is treated separately by the lock model
below).  `connOk` says whether `create_sftp_connection()` succeeds; when
it raises, the run aborts after the header write with no task
dispatched. -/

/-- One line of the log file. -/
inductive LogLine where
  | header : LogLine
  | record : Record → LogLine
deriving DecidableEq, Repr

/-- The durable run state: log-file lines and `results` rows. -/
structure SysState where
  logFile : List LogLine
  db : List DbRow
deriving DecidableEq, Repr

/-- Embedding of `initialize_database()`: `CREATE TABLE IF NOT EXISTS`
creates the table only when absent (`none`) and leaves existing rows
untouched. -/
def initialize_database : Option (List DbRow) → Option (List DbRow)
  | none => some []
  | some rows => some rows

/-- The descriptors discovered across all configured root directories, in
order. -/
def discovered (ext keyword : List Char)
    (roots : List (List Char × Bool × RTree)) : List FileDesc :=
  (roots.map (fun r => list_files_recursive ext keyword r.1 r.2.1 r.2.2)).flatten

/-- Per-run oracles: connection success, the roots with their listings,
and the step oracle, local content and exception text of each file's
task. -/
structure RunInput where
  connOk : Bool
  roots : List (List Char × Bool × RTree)
  oracle : FileDesc → StepOracle
  content : FileDesc → List Char
  errText : FileDesc → List Char

/-- One dispatched task's effect on the run state. -/
def runStep (inp : RunInput) (st : SysState) (fd : FileDesc) : SysState :=
  let r := process_file (inp.oracle fd) fd.filename (inp.content fd)
    (inp.errText fd)
  { logFile := st.logFile ++ r.log.map LogLine.record, db := st.db ++ r.db }

/-- Embedding of `fetch_and_validate_sftp_files(schema_dict, dialect)`. -/
def fetch_and_validate_sftp_files (ext keyword : List Char)
    (inp : RunInput) (s : SysState) : SysState :=
  let s0 : SysState := { s with logFile := [LogLine.header] }
  if inp.connOk then (discovered ext keyword inp.roots).foldl (runStep inp) s0
  else s0

theorem foldl_runStep_log (inp : RunInput) :
    ∀ (files : List FileDesc) (st : SysState),
      (files.foldl (runStep inp) st).logFile =
        st.logFile ++ (files.map (fun fd =>
          (process_file (inp.oracle fd) fd.filename (inp.content fd)
            (inp.errText fd)).log.map LogLine.record)).flatten := by
  intro files
  induction files with
  | nil => intro st; simp
  | cons fd rest ih =>
    intro st
    rw [List.foldl_cons, ih, List.map_cons, List.flatten_cons]
    simp [runStep]

theorem foldl_runStep_db (inp : RunInput) :
    ∀ (files : List FileDesc) (st : SysState),
      (files.foldl (runStep inp) st).db =
        st.db ++ (files.map (fun fd =>
          (process_file (inp.oracle fd) fd.filename (inp.content fd)
            (inp.errText fd)).db)).flatten := by
  intro files
  induction files with
  | nil => intro st; simp
  | cons fd rest ih =>
    intro st
    rw [List.foldl_cons, ih, List.map_cons, List.flatten_cons]
    simp [runStep]

theorem count_le_sum (l : List Nat) (h : ∀ x ∈ l, 1 ≤ x) :
    l.length ≤ l.sum := by
  induction l with
  | nil => simp
  | cons x rest ih =>
    rw [List.length_cons, List.sum_cons]
    have h1 : 1 ≤ x := h x (List.mem_cons_self x rest)
    have h2 : rest.length ≤ rest.sum :=
      ih (fun y hy => h y (List.mem_cons_of_mem x hy))
    omega

/-- Claim C10: every invocation of the run entry point first truncates
the log file to the single header line, erasing all records of previous
runs, before any task is dispatched (the resulting log does not depend on
the prior state at all, starts with the header, and contains no further
header line); the results database is never truncated — the run only
appends rows, and `initialize_database` leaves existing rows unchanged. -/
theorem run_truncates_log_never_db (ext keyword : List Char)
    (inp : RunInput) (s t : SysState) :
    (fetch_and_validate_sftp_files ext keyword inp s).logFile.head? =
      some LogLine.header ∧
    (fetch_and_validate_sftp_files ext keyword inp s).logFile =
      (fetch_and_validate_sftp_files ext keyword inp t).logFile ∧
    (∀ l ∈ (fetch_and_validate_sftp_files ext keyword inp s).logFile.tail,
      l ≠ LogLine.header) ∧
    (∃ rows, (fetch_and_validate_sftp_files ext keyword inp s).db =
      s.db ++ rows) ∧
    (∀ rows, initialize_database (some rows) = some rows) := by
  by_cases hconn : inp.connOk = true
  · have hlog : ∀ u : SysState,
        (fetch_and_validate_sftp_files ext keyword inp u).logFile =
          LogLine.header :: ((discovered ext keyword inp.roots).map (fun fd =>
            (process_file (inp.oracle fd) fd.filename (inp.content fd)
              (inp.errText fd)).log.map LogLine.record)).flatten := by
      intro u
      rw [fetch_and_validate_sftp_files]
      simp only [hconn, if_true]
      rw [foldl_runStep_log]
      rfl
    refine ⟨?_, ?_, ?_, ?_, fun rows => rfl⟩
    · rw [hlog s]
      rfl
    · rw [hlog s, hlog t]
    · rw [hlog s]
      intro l hl
      simp only [List.tail_cons] at hl
      rw [List.mem_flatten] at hl
      obtain ⟨recs, hrecs, hlmem⟩ := hl
      rw [List.mem_map] at hrecs
      obtain ⟨fd, -, hfd⟩ := hrecs
      subst hfd
      rw [List.mem_map] at hlmem
      obtain ⟨r, -, hr⟩ := hlmem
      subst hr
      intro hab
      cases hab
    · rw [fetch_and_validate_sftp_files]
      simp only [hconn, if_true]
      rw [foldl_runStep_db]
      exact ⟨_, rfl⟩
  · have hrun : fetch_and_validate_sftp_files ext keyword inp s =
        { s with logFile := [LogLine.header] } := by
      rw [fetch_and_validate_sftp_files]
      simp [hconn]
    have hrunt : fetch_and_validate_sftp_files ext keyword inp t =
        { t with logFile := [LogLine.header] } := by
      rw [fetch_and_validate_sftp_files]
      simp [hconn]
    refine ⟨by rw [hrun]; rfl, by rw [hrun, hrunt], ?_, ?_, fun rows => rfl⟩
    · rw [hrun]
      intro l hl
      simp at hl
    · rw [hrun]
      exact ⟨[], by simp⟩

/-- Claim C6: a directory-listing failure is scoped to its node — the
failed subtree contributes zero descriptors while the remaining entries
of the listing, the sibling subtrees and the other roots are traversed
unchanged; the non-recursive lister likewise returns the empty list on a
listing failure; and the run still completes with a summarisable log
holding at least one record per discovered file. -/
theorem listing_failure_scoped (ext keyword path name rootPath : List Char)
    (children rest listing : RTree) (entries : List DirEntry)
    (inp : RunInput) (s : SysState) (hconn : inp.connOk = true)
    (hrec : ∀ fd, (inp.oracle fd).logErrOk = true) :
    recurseListing ext keyword path (RTree.dirE name false children rest) =
      recurseListing ext keyword path rest ∧
    list_files_recursive ext keyword rootPath false listing = [] ∧
    (∀ roots1 roots2 : List (List Char × Bool × RTree),
      discovered ext keyword (roots1 ++ (rootPath, false, listing) :: roots2) =
        discovered ext keyword roots1 ++ discovered ext keyword roots2) ∧
    list_csv_files false entries = [] ∧
    (discovered ext keyword inp.roots).length ≤
      (fetch_and_validate_sftp_files ext keyword inp s).logFile.tail.length := by
  refine ⟨by rw [recurseListing]; rfl, rfl, ?_, rfl, ?_⟩
  · intro roots1 roots2
    unfold discovered
    rw [List.map_append, List.map_cons, List.flatten_append,
      List.flatten_cons]
    rfl
  · rw [fetch_and_validate_sftp_files]
    simp only [hconn, if_true]
    rw [foldl_runStep_log]
    simp only [List.singleton_append, List.tail_cons]
    rw [List.length_flatten, List.map_map]
    have hElems : ∀ x ∈ ((discovered ext keyword inp.roots).map
        (List.length ∘ fun fd =>
          (process_file (inp.oracle fd) fd.filename (inp.content fd)
            (inp.errText fd)).log.map LogLine.record)), 1 ≤ x := by
      intro x hx
      rw [List.mem_map] at hx
      obtain ⟨fd, -, hfd⟩ := hx
      subst hfd
      simp only [Function.comp_apply, List.length_map]
      rw [process_file_record_count _ _ _ _ (hrec fd)]
      by_cases hc : ((inp.oracle fd).fetchOk && (inp.oracle fd).readOk &&
          (inp.oracle fd).logOk && !(inp.oracle fd).dbOk) = true
      · rw [if_pos hc]
        omega
      · rw [if_neg hc]
    have := count_le_sum _ hElems
    rw [List.length_map] at this
    exact this

/-- Three-root run used by the failure-scoping witness: the middle root's
listing fails, the other two each hold one matching file, every task step
succeeds. -/
def c6input : RunInput :=
  { connOk := true,
    roots := [((("/r1").data), true,
                RTree.fileE (("target_a.csv").data) RTree.nil),
              ((("/r2").data), false,
                RTree.fileE (("target_b.csv").data) RTree.nil),
              ((("/r3").data), true,
                RTree.fileE (("target_c.csv").data) RTree.nil)],
    oracle := fun _ => ⟨true, true, true, true, true⟩,
    content := fun _ => ("a,b").data,
    errText := fun _ => [] }

/-- Witness for `listing_failure_scoped`: with 3 roots of which the middle
one fails to list, the other 2 roots' files are still discovered, and the
completed run's log holds a record for each of them. -/
theorem listing_failure_scoped_witness :
    discovered ((".csv").data) (("target").data) c6input.roots =
      [{ path := ("/r1/target_a.csv").data,
         filename := ("target_a.csv").data },
       { path := ("/r3/target_c.csv").data,
         filename := ("target_c.csv").data }] ∧
    (discovered ((".csv").data) (("target").data) c6input.roots).length ≤
      (fetch_and_validate_sftp_files ((".csv").data) (("target").data)
        c6input ⟨[], []⟩).logFile.tail.length := by
  refine ⟨by decide, ?_⟩
  exact (listing_failure_scoped ((".csv").data) (("target").data) [] []
    (("/r2").data) RTree.nil RTree.nil
    (RTree.fileE (("target_b.csv").data) RTree.nil) [] c6input ⟨[], []⟩
    rfl (fun _ => rfl)).2.2.2.2

/-! ## The log mutex under concurrency  (sftp-csv-validator.py, lines
171–183, 193)

Both log appends of `process_file` are bracketed as
`with log_lock: with open(LOG_FILE, "a") ...: log.write(log_line)` —
acquire the single shared lock, write the record, release.  This is
embedded as a small interleaving semantics: each of `W` worker tasks has
the action trace `acquire, write c₁, ..., write cₙ, release` for the
characters of its record (the file append is modelled at character
granularity precisely so that torn or interleaved records are
expressible), and a schedule picks an arbitrary worker at every step.
`acquire` proceeds only when the lock is free and `release` only for the
holder, but a `write` — a plain file operation the operating system does
not guard — is never blocked by the semantics itself; only the trace
discipline of the `with log_lock` bracket protects it.  A scheduled worker
whose next action is blocked (or who is finished) simply makes no
progress at that step. -/

/-- One primitive action on the shared log resource. -/
inductive LogAction where
  | acquire : LogAction
  | write : Char → LogAction
  | release : LogAction
deriving DecidableEq, Repr

/-- The action trace of one worker appending one record under the lock. -/
def workerTrace (record : List Char) : List LogAction :=
  LogAction.acquire :: (record.map LogAction.write ++ [LogAction.release])

/-- Global state: per-worker remaining traces, lock holder, log content. -/
structure LockState (W : Nat) where
  pcs : Fin W → List LogAction
  holder : Option (Fin W)
  log : List Char

/-- Pointwise update of one worker's remaining trace. -/
def wUpdate (pcs : Fin W → List LogAction) (w : Fin W)
    (v : List LogAction) (x : Fin W) : List LogAction :=
  if x = w then v else pcs x

/-- One scheduler step giving worker `w` the processor: `none` when `w`
cannot make progress. -/
def lockStep (s : LockState W) (w : Fin W) : Option (LockState W) :=
  match s.pcs w with
  | [] => none
  | LogAction.acquire :: rest =>
    match s.holder with
    | none => some { pcs := wUpdate s.pcs w rest, holder := some w,
                     log := s.log }
    | some _ => none
  | LogAction.write c :: rest =>
    some { pcs := wUpdate s.pcs w rest, holder := s.holder,
           log := s.log ++ [c] }
  | LogAction.release :: rest =>
    if s.holder = some w then
      some { pcs := wUpdate s.pcs w rest, holder := none, log := s.log }
    else none

/-- Run a whole schedule (a blocked scheduling choice is a no-op). -/
def execSchedule (s : LockState W) : List (Fin W) → LockState W
  | [] => s
  | w :: sch =>
    match lockStep s w with
    | none => execSchedule s sch
    | some t => execSchedule t sch

/-- Initial state: every worker is about to append its record, the lock
is free, the log is empty. -/
def initLock (W : Nat) (records : Fin W → List Char) : LockState W :=
  { pcs := fun w => workerTrace (records w), holder := none, log := [] }

/-- The mutual-exclusion invariant: the log is the concatenation of the
records of the finished workers (`done`), plus — when some worker holds
the lock — the already-written prefix of the holder's record; every other
worker is either finished or has not yet acquired. -/
def LockInv (records : Fin W → List Char) (s : LockState W) : Prop :=
  ∃ done : List (Fin W), done.Nodup ∧
    ((s.holder = none ∧ s.log = (done.map records).flatten ∧
      ∀ x, s.pcs x = if x ∈ done then [] else workerTrace (records x)) ∨
     (∃ h written remaining, s.holder = some h ∧ h ∉ done ∧
       records h = written ++ remaining ∧
       s.log = (done.map records).flatten ++ written ∧
       s.pcs h = remaining.map LogAction.write ++ [LogAction.release] ∧
       ∀ x, x ≠ h → s.pcs x =
         if x ∈ done then [] else workerTrace (records x)))

theorem LockInv_init (W : Nat) (records : Fin W → List Char) :
    LockInv records (initLock W records) :=
  ⟨[], List.nodup_nil, Or.inl ⟨rfl, rfl, fun _ => rfl⟩⟩

theorem LockInv_step (records : Fin W → List Char) (s t : LockState W)
    (w : Fin W) (hinv : LockInv records s)
    (hstep : lockStep s w = some t) : LockInv records t := by
  obtain ⟨done, hnd, hcase⟩ := hinv
  rcases hcase with ⟨hh, hlog, hpcs⟩ |
    ⟨h, written, remaining, hh, hhd, hrec, hlog, hpch, hpcs⟩
  · have hw := hpcs w
    by_cases hmem : w ∈ done
    · rw [if_pos hmem] at hw
      rw [lockStep, hw] at hstep
      cases hstep
    · rw [if_neg hmem] at hw
      rw [lockStep, hw, workerTrace] at hstep
      simp only [hh, Option.some.injEq] at hstep
      subst hstep
      refine ⟨done, hnd, Or.inr ⟨w, [], records w, rfl, hmem, ?_, ?_, ?_, ?_⟩⟩
      · rw [List.nil_append]
      · rw [List.append_nil]
        exact hlog
      · simp only [wUpdate]
        rw [if_true]
      · intro x hx
        simp only [wUpdate]
        rw [if_neg hx]
        exact hpcs x
  · by_cases hwh : w = h
    · subst hwh
      cases hrem : remaining with
      | nil =>
        rw [hrem] at hpch
        simp only [List.map_nil, List.nil_append] at hpch
        rw [lockStep, hpch] at hstep
        simp only [hh, if_pos, Option.some.injEq] at hstep
        subst hstep
        refine ⟨done ++ [w], ?_, Or.inl ⟨rfl, ?_, ?_⟩⟩
        · rw [List.nodup_append]
          exact ⟨hnd, List.nodup_singleton w,
            by simpa using fun hx => hhd hx⟩
        · rw [List.map_append, List.flatten_append]
          simp only [List.map_cons, List.map_nil, List.flatten_cons,
            List.flatten_nil, List.append_nil]
          rw [hlog, hrec, hrem, List.append_nil]
        · intro x
          by_cases hx : x = w
          · subst hx
            simp only [wUpdate]
            rw [if_true, if_pos (by simp)]
          · simp only [wUpdate]
            rw [if_neg hx]
            rw [hpcs x hx]
            by_cases hxd : x ∈ done
            · rw [if_pos hxd, if_pos (by simp [hxd])]
            · rw [if_neg hxd, if_neg (by simp [hxd, hx])]
      | cons c rem2 =>
        rw [hrem] at hpch
        simp only [List.map_cons, List.cons_append] at hpch
        rw [lockStep, hpch] at hstep
        simp only [Option.some.injEq] at hstep
        subst hstep
        refine ⟨done, hnd,
          Or.inr ⟨w, written ++ [c], rem2, hh, hhd, ?_, ?_, ?_, ?_⟩⟩
        · rw [hrec, hrem]
          simp
        · rw [hlog, List.append_assoc]
        · simp only [wUpdate]
          rw [if_true]
        · intro x hx
          simp only [wUpdate]
          rw [if_neg hx]
          exact hpcs x hx
    · have hw := hpcs w hwh
      by_cases hmem : w ∈ done
      · rw [if_pos hmem] at hw
        rw [lockStep, hw] at hstep
        cases hstep
      · rw [if_neg hmem] at hw
        rw [lockStep, hw, workerTrace] at hstep
        simp only [hh] at hstep
        cases hstep

theorem LockInv_exec (records : Fin W → List Char) :
    ∀ (sch : List (Fin W)) (s : LockState W), LockInv records s →
      LockInv records (execSchedule s sch) := by
  intro sch
  induction sch with
  | nil => intro s hs; exact hs
  | cons w rest ih =>
    intro s hs
    rw [execSchedule]
    cases hstep : lockStep s w with
    | none => exact ih s hs
    | some t => exact ih t (LockInv_step records s t w hs hstep)

/-- Claim C8: under concurrent execution the `with log_lock` bracket in
`process_file` ensures the appended records are never interleaved or
torn: for every schedule of `W` worker tasks in which all workers finish,
the final log is exactly a concatenation of the `W` complete records, one
per worker, in some order — even though the semantics never blocks a raw
write; and a worker's next action is a log write only while it holds the
mutex. -/
theorem log_mutex_no_interleaving (W : Nat) (records : Fin W → List Char) :
    (∀ sch : List (Fin W),
      (∀ w, (execSchedule (initLock W records) sch).pcs w = []) →
      ∃ order : List (Fin W), List.Perm order (List.finRange W) ∧
        (execSchedule (initLock W records) sch).log =
          (order.map records).flatten) ∧
    (∀ (sch : List (Fin W)) (w : Fin W) (c : Char) (rest : List LogAction),
      (execSchedule (initLock W records) sch).pcs w =
        LogAction.write c :: rest →
      (execSchedule (initLock W records) sch).holder = some w) := by
  have hinv : ∀ sch,
      LockInv records (execSchedule (initLock W records) sch) :=
    fun sch => LockInv_exec records sch _ (LockInv_init W records)
  constructor
  · intro sch hdone
    obtain ⟨done, hnd, hcase⟩ := hinv sch
    rcases hcase with ⟨hh, hlog, hpcs⟩ |
      ⟨h, written, remaining, hh, hhd, hrec, hlog, hpch, hpcs⟩
    · refine ⟨done, ?_, hlog⟩
      have hmem : ∀ x : Fin W, x ∈ done := by
        intro x
        have hx2 := hpcs x
        rw [hdone x] at hx2
        by_cases hx : x ∈ done
        · exact hx
        · rw [if_neg hx] at hx2
          exact absurd hx2 (by simp [workerTrace])
      refine (List.perm_ext_iff_of_nodup hnd (List.nodup_finRange W)).mpr ?_
      intro x
      simp [hmem x, List.mem_finRange]
    · exfalso
      have hx2 := hdone h
      rw [hpch] at hx2
      exact absurd hx2 (by simp)
  · intro sch w c rest hw
    obtain ⟨done, hnd, hcase⟩ := hinv sch
    rcases hcase with ⟨hh, hlog, hpcs⟩ |
      ⟨h, written, remaining, hh, hhd, hrec, hlog, hpch, hpcs⟩
    · exfalso
      have hx2 := hpcs w
      rw [hw] at hx2
      by_cases hx : w ∈ done
      · rw [if_pos hx] at hx2
        cases hx2
      · rw [if_neg hx] at hx2
        simp [workerTrace] at hx2
    · by_cases hwh : w = h
      · subst hwh
        exact hh
      · exfalso
        have hx2 := hpcs w hwh
        rw [hw] at hx2
        by_cases hx : w ∈ done
        · rw [if_pos hx] at hx2
          cases hx2
        · rw [if_neg hx] at hx2
          simp [workerTrace] at hx2

/-- Records of the two workers used by the lock witness. -/
def c8records : Fin 2 → List Char :=
  fun w => if w = 0 then ("ab").data else ("cd").data

/-- A schedule in which worker 1 is scheduled (and blocked) twice while
worker 0 holds the lock, then finishes after worker 0. -/
def c8schedule : List (Fin 2) := [0, 1, 0, 0, 1, 0, 1, 1, 1, 1]

/-- Witness for `log_mutex_no_interleaving`: on the concrete two-worker
schedule both workers finish and the log is a concatenation of the two
complete records. -/
theorem log_mutex_no_interleaving_witness :
    (∀ w, (execSchedule (initLock 2 c8records) c8schedule).pcs w = []) ∧
    (∃ order : List (Fin 2), List.Perm order (List.finRange 2) ∧
      (execSchedule (initLock 2 c8records) c8schedule).log =
        (order.map c8records).flatten) :=
  ⟨by decide, (log_mutex_no_interleaving 2 c8records).1 c8schedule (by decide)⟩
